import Mathlib

/-!
Verification development for the SCRIBBLE repository core
(pool allocator, state-evolution model, cache engine, seed wrapper).

The repository ships the C headers `prismancer.h`, `ffi/zig_bridge.h`,
`ffi/julia_bridge.h` (declarations of the pool, quantum-state and cache
surfaces) and the concrete program `tools/seed/sparkwrap.c`.  The bodies of
the pool/state/cache operations are not part of the repository, so those
operations are modelled from the specification; `sparkwrap.c` is embedded
directly from its source.
-/

/-! ## Pool allocator

Modelled from the spec: the bodies of `prismancer_memory_pool_create`,
`prismancer_memory_allocate` and `prismancer_memory_free` (declared in
`ffi/zig_bridge.h`) are not in the repository; the definitions below follow
spec section 4.1: fixed-block arena, ordered block list, first-fit scan with
splitting, coalescing of adjacent free neighbours on free.
-/

/-- A block descriptor: offset, length, free flag (spec section 3, Block). -/
structure Block where
  offset : Nat
  len : Nat
  free : Bool
deriving DecidableEq, Repr

/-- The pool: capacity, block granularity, address-ordered block sequence,
used-bytes counter (spec section 3, Pool). -/
structure Pool where
  total_size : Nat
  block_size : Nat
  blocks : List Block
  used_size : Nat
deriving DecidableEq, Repr

/-- Pool error taxonomy (spec section 7). -/
inductive PoolError where
  | InvalidSize
  | OutOfMemory
  | InvalidHandle
deriving DecidableEq, Repr

/-- Round `size` up to the next multiple of `bs`. -/
def roundUp (size bs : Nat) : Nat := ((size + bs - 1) / bs) * bs

/-- Modelled from the spec: `create(total_size, block_size)` fails with
`InvalidSize` if `block_size = 0` or `total_size` is not a positive multiple
of `block_size`; otherwise the pool starts as one free block covering
`[0, total_size)`. -/
def Pool.create (total_size : Nat) (block_size : Nat) : Except PoolError Pool :=
  if block_size = 0 ∨ total_size = 0 ∨ total_size % block_size ≠ 0 then
    .error .InvalidSize
  else
    .ok ⟨total_size, block_size, [⟨0, total_size, true⟩], 0⟩

/-- First-fit scan over the address-ordered block list: find the first free
block of length at least `need`, mark `need` bytes in use, splitting off the
non-empty remainder as a free block.  Returns the updated list and the
offset (the handle) of the allocated block. -/
def allocScan : List Block → Nat → Option (List Block × Nat)
  | [], _ => none
  | b :: rest, need =>
    if b.free ∧ need ≤ b.len then
      if need < b.len then
        some (⟨b.offset, need, false⟩ :: ⟨b.offset + need, b.len - need, true⟩ :: rest, b.offset)
      else
        some (⟨b.offset, b.len, false⟩ :: rest, b.offset)
    else
      match allocScan rest need with
      | none => none
      | some (rest', off) => some (b :: rest', off)

/-- Modelled from the spec: `allocate(pool, size)` rounds `size` up to the
next multiple of `block_size`, first-fit scans the free list in address
order, splits a larger free block when the remainder is non-empty, and
fails with `OutOfMemory` when no free block is large enough. -/
def Pool.allocate (p : Pool) (size : Nat) : Except PoolError (Pool × Nat) :=
  let need := roundUp size p.block_size
  match allocScan p.blocks need with
  | none => .error .OutOfMemory
  | some (bs, off) =>
      .ok ({ p with blocks := bs, used_size := p.used_size + need }, off)

/-- Find the in-use block whose offset equals the handle and mark it free,
returning its length.  A handle naming an already-free block, or naming no
block, yields `none` (`InvalidHandle`). -/
def freeScan : List Block → Nat → Option (List Block × Nat)
  | [], _ => none
  | b :: rest, h =>
    if b.offset = h then
      if b.free then none
      else some (⟨b.offset, b.len, true⟩ :: rest, b.len)
    else
      match freeScan rest h with
      | none => none
      | some (rest', len) => some (b :: rest', len)

/-- Merge adjacent free blocks (spec: on free, merge with an immediately
adjacent free neighbour, both directions). -/
def coalesce : List Block → List Block
  | [] => []
  | b :: rest =>
    match coalesce rest with
    | [] => [b]
    | c :: cs =>
      if b.free ∧ c.free then ⟨b.offset, b.len + c.len, true⟩ :: cs
      else b :: c :: cs

/-- Modelled from the spec: `free(pool, handle)` marks the block free,
merges it with contiguous free neighbours, and updates `used_size`; freeing
an already-free or foreign handle fails with `InvalidHandle`. -/
def Pool.free (p : Pool) (handle : Nat) : Except PoolError Pool :=
  match freeScan p.blocks handle with
  | none => .error .InvalidHandle
  | some (bs, len) =>
      .ok { p with blocks := coalesce bs, used_size := p.used_size - len }

/-- A single allocate or free request. -/
inductive PoolOp where
  | alloc (size : Nat)
  | dealloc (handle : Nat)
deriving DecidableEq, Repr

/-- Apply one request; a failed request leaves the pool unchanged (errors
are explicit result values and mutate nothing). -/
def applyOp (p : Pool) : PoolOp → Pool
  | .alloc s =>
    match p.allocate s with
    | .ok (p', _) => p'
    | .error _ => p
  | .dealloc h =>
    match p.free h with
    | .ok p' => p'
    | .error _ => p

/-- Run a sequence of allocate/free requests. -/
def runOps (p : Pool) : List PoolOp → Pool
  | [] => p
  | op :: rest => runOps (applyOp p op) rest

/-! ### Pool invariants -/

/-- The block list is a contiguous partition starting at `start`: each
block begins exactly where the previous one ended (address order). -/
def chainFrom : Nat → List Block → Prop
  | _, [] => True
  | start, b :: rest => b.offset = start ∧ chainFrom (start + b.len) rest

/-- Total length carried by a block list. -/
def sumLens (bs : List Block) : Nat := (bs.map Block.len).sum

/-- Length carried by the in-use blocks. -/
def usedSum (bs : List Block) : Nat :=
  ((bs.filter fun b => !b.free).map Block.len).sum

/-! ## State evolution model

Modelled from the spec: the bodies of `prismancer_quantum_state_evolve` and
`prismancer_wave_interference_compute` (declared in `ffi/julia_bridge.h`)
are not in the repository; the definitions below follow spec section 4.2:
exponential coherence decay, phase advance modulo 2*pi, collapse below a
fixed threshold, strict-length interference.
-/

/-- The quantum state of `ffi/julia_bridge.h` (coherence, phase, amplitude,
energy level, collapsed flag), extended with the per-state decay rate and
frequency that spec section 4.2 uses in the evolve formulas. -/
structure QuantumState where
  coherence : ℝ
  phase : ℝ
  amplitude : ℝ
  energy_level : Nat
  is_collapsed : Bool
  decay_rate : ℝ
  frequency : ℝ

/-- Evolve errors (spec sections 4.2 and 7). -/
inductive EvolveError where
  | AlreadyCollapsed
  | NegativeDt
deriving DecidableEq, Repr

/-- The fixed collapse threshold epsilon (spec: e.g. 1e-6). -/
noncomputable def collapseThreshold : ℝ := 1 / 1000000

/-- Reduce an angle into `[0, 2*pi)`. -/
noncomputable def phaseMod (x : ℝ) : ℝ := x - 2 * Real.pi * ⌊x / (2 * Real.pi)⌋

/-- Modelled from the spec: `evolve(state, dt)` rejects collapsed states
(`AlreadyCollapsed`, always, per spec section 8) and `dt < 0`; otherwise the
new coherence is `coherence * exp(-decay_rate * dt)` and the new phase is
`(phase + 2*pi*frequency*dt) mod 2*pi`; if the new coherence falls below
the threshold, coherence is clamped to 0 and the state collapses.  Energy
level and amplitude are never touched. -/
noncomputable def evolve (s : QuantumState) (dt : ℝ) : Except EvolveError QuantumState :=
  if s.is_collapsed then .error .AlreadyCollapsed
  else if dt < 0 then .error .NegativeDt
  else
    let c := s.coherence * Real.exp (-s.decay_rate * dt)
    let ph := phaseMod (s.phase + 2 * Real.pi * s.frequency * dt)
    if c < collapseThreshold then
      .ok { s with coherence := 0, phase := ph, is_collapsed := true }
    else
      .ok { s with coherence := c, phase := ph }

/-- One evolve step as a total function: a failing call leaves the state
unchanged (errors are explicit result values and mutate nothing). -/
noncomputable def evolveStep (dt : ℝ) (s : QuantumState) : QuantumState :=
  match evolve s dt with
  | .ok s' => s'
  | .error _ => s

/-- Iterate `evolve` with a fixed time step. -/
noncomputable def evolveIter (dt : ℝ) : Nat → QuantumState → QuantumState
  | 0, s => s
  | n + 1, s => evolveIter dt n (evolveStep dt s)

/-- The wave signal of `ffi/julia_bridge.h` (coefficients, frequency,
decay rate). -/
structure WaveSignal where
  coefficients : List ℝ
  frequency : ℝ
  decay_rate : ℝ

/-- Interference errors (spec sections 4.2 and 7). -/
inductive WaveError where
  | LengthMismatch
deriving DecidableEq, Repr

/-- Per-index superposition term (spec section 4.2). -/
noncomputable def interfCoeff (phase_a phase_b : ℝ) (x y : ℝ) : ℝ :=
  x + y + 2 * Real.sqrt |x * y| * Real.cos (phase_a - phase_b)

/-- Modelled from the spec: `interference(a, b)` requires equal coefficient
lengths (else `LengthMismatch`); the result combines coefficients by the
superposition formula, averages the frequencies and takes the larger decay
rate.  The call-time running phases are passed explicitly because they are
tracked outside the `WaveSignal`. -/
noncomputable def interference (a b : WaveSignal) (phase_a phase_b : ℝ) :
    Except WaveError WaveSignal :=
  if a.coefficients.length = b.coefficients.length then
    .ok ⟨List.zipWith (interfCoeff phase_a phase_b) a.coefficients b.coefficients,
         (a.frequency + b.frequency) / 2,
         max a.decay_rate b.decay_rate⟩
  else
    .error .LengthMismatch

/-! ## Cache engine

Modelled from the spec: the cache engine behind `PrismancerCacheEntry` and
the cache settings of `PrismancerConfig` (`cache_size`, `cache_coherence`,
`cache_generations`) has no body in the repository; `sweep` below follows
spec section 4.3.2: decay every entry, evict volatile below-floor entries
unconditionally, promote survivors one generation (saturating at the last
generation), then evict further volatile entries if capacity is still
exceeded.
-/

/-- A cache entry (`PrismancerCacheEntry` in `ffi/zig_bridge.h`), extended
with the generation index and per-entry decay rate of spec section 3. -/
structure CacheEntry where
  key : Nat
  size : Nat
  coherence : ℝ
  last_access : Nat
  is_volatile : Bool
  generation : Nat
  decay_rate : ℝ

/-- Cache settings (`PrismancerConfig` in `prismancer.h`): capacity,
generation count, coherence floor. -/
structure CacheConfig where
  capacity : Nat
  generations : Nat
  floor : ℝ

/-- Sweep step 1: advance an entry coherence by the decay formula. -/
noncomputable def decayEntry (dt : ℝ) (e : CacheEntry) : CacheEntry :=
  { e with coherence := e.coherence * Real.exp (-e.decay_rate * dt) }

/-- Sweep step 4: a surviving entry in generation `g < G-1` moves to
`g+1`; an entry already in the last generation stays there. -/
def promoteEntry (gens : Nat) (e : CacheEntry) : CacheEntry :=
  { e with generation := if e.generation < gens - 1 then e.generation + 1 else e.generation }

/-- Eviction priority for capacity pressure: generation 0 (newest) first,
then lower coherence first, ties broken by older last access. -/
noncomputable def evictOrder (a b : CacheEntry) : Bool :=
  if a.generation ≠ b.generation then decide (a.generation < b.generation)
  else if a.coherence ≠ b.coherence then decide (a.coherence < b.coherence)
  else decide (a.last_access ≤ b.last_access)

/-- Sweep step 5: while the resident count exceeds capacity, evict volatile
entries in eviction-priority order; pinned entries are never evicted. -/
noncomputable def capacityEvict (cfg : CacheConfig) (entries : List CacheEntry) :
    List CacheEntry :=
  if entries.length ≤ cfg.capacity then entries
  else
    let excess := entries.length - cfg.capacity
    let victimKeys :=
      (((entries.filter fun e => e.is_volatile).mergeSort evictOrder).take excess).map
        CacheEntry.key
    entries.filter fun e => !victimKeys.contains e.key

/-- Modelled from the spec: `sweep(cache, dt)` decays every resident entry,
unconditionally evicts the volatile entries whose decayed coherence is
below the floor, promotes the survivors, and finally enforces capacity. -/
noncomputable def sweep (cfg : CacheConfig) (dt : ℝ) (entries : List CacheEntry) :
    List CacheEntry :=
  let decayed := entries.map (decayEntry dt)
  let kept := decayed.filter fun e => !(e.is_volatile && decide (e.coherence < cfg.floor))
  let promoted := kept.map (promoteEntry cfg.generations)
  capacityEvict cfg promoted

/-! ## Bridge error surface

Modelled from the spec: spec section 9 records that the original bridge
surfaces keep a global "last error" string, exposed in the headers as
`prismancer_zig_get_last_error` / `prismancer_zig_clear_error`
(`ffi/zig_bridge.h`) and the Julia/top-level variants; a failing bridge
call returns NULL and stores its message in that process-wide state.
-/

/-- The process-wide last-error state of the bridge runtime. -/
structure BridgeErrorState where
  lastError : Option String
deriving DecidableEq, Repr

/-- `prismancer_zig_get_last_error`: read the last error message, NULL if
none. -/
def prismancer_zig_get_last_error (st : BridgeErrorState) : Option String :=
  st.lastError

/-- `prismancer_zig_clear_error`: clear the last error state. -/
def prismancer_zig_clear_error (_ : BridgeErrorState) : BridgeErrorState :=
  ⟨none⟩

/-- Render a pool error as the bridge error message. -/
def poolErrorMessage : PoolError → String
  | .InvalidSize => "invalid pool size"
  | .OutOfMemory => "out of memory"
  | .InvalidHandle => "invalid handle"

/-- Modelled from the spec: `prismancer_memory_pool_create` returns NULL on
failure (`ffi/zig_bridge.h`) and records the failure message in the
process-wide last-error state read by `prismancer_zig_get_last_error`. -/
def prismancer_memory_pool_create (st : BridgeErrorState) (total bsz : Nat) :
    BridgeErrorState × Option Pool :=
  match Pool.create total bsz with
  | .ok p => (st, some p)
  | .error e => (⟨some (poolErrorMessage e)⟩, none)

/-! ## Seed wrapper

Embedded from `src/lib/spark/tools/seed/sparkwrap.c`: resolve the seed
directory from `SPARK_SEED_DIR` or from the wrapper location
(`readlink("/proc/self/exe")` into a `PATH_MAX` buffer, then `dirname`),
build `dir + "/zig-out/bin/seed"` with an `snprintf` overflow check, and
`execv` it with the caller argv.
-/

/-- `PATH_MAX` on Linux. -/
def PATH_MAX : Nat := 4096

/-- Drop every trailing occurrence of `c`. -/
def dropTrailing (c : Char) (l : List Char) : List Char :=
  (l.reverse.dropWhile fun x => x == c).reverse

/-- POSIX `dirname` as provided by libgen and used by `sparkwrap.c`:
strip trailing slashes, drop the last path component, strip the trailing
slashes of what remains; a name with no slash gives ".", an all-slash or
root result gives "/". -/
def dirname (path : List Char) : List Char :=
  let s := dropTrailing '/' path
  if s.isEmpty then
    if path.isEmpty then ['.'] else ['/']
  else
    let t := (s.reverse.dropWhile fun x => !(x == '/')).reverse
    if t.isEmpty then ['.']
    else
      let u := dropTrailing '/' t
      if u.isEmpty then ['/'] else u

/-- The fixed suffix appended by `sparkwrap.c`. -/
def seedSuffix : List Char := "/zig-out/bin/seed".toList

/-- The observable outcome of the wrapper: replace the process via `execv`
with a path and argv, or return exit code 1 after printing an error. -/
inductive MainResult where
  | exec (path : List Char) (argv : List (List Char))
  | exitFailure
deriving DecidableEq, Repr

/-- The wrapper environment: `SPARK_SEED_DIR` if set, the target of
`/proc/self/exe` (`none` when `readlink` fails), and which paths `execv`
would succeed on. -/
structure WrapEnv where
  sparkSeedDir : Option (List Char)
  procSelfExe : Option (List Char)
  execOk : List Char → Bool

/-- `readlink("/proc/self/exe", exe_path, sizeof(exe_path) - 1)`: fails
when the link cannot be read, otherwise yields at most `PATH_MAX - 1`
characters of the target (silent truncation, as `readlink` does). -/
def readlinkProcSelfExe (env : WrapEnv) : Option (List Char) :=
  env.procSelfExe.map fun t => t.take (PATH_MAX - 1)

/-- `main` of `sparkwrap.c`: take the directory from `SPARK_SEED_DIR`, else
from `dirname` of the resolved executable path (failing readlink means exit
1); build the path, bail out with exit 1 if `snprintf` reports it does not
fit the `PATH_MAX` buffer; `execv` the path with the original argv, and
exit 1 if `execv` returns. -/
def sparkwrapMain (env : WrapEnv) (argv : List (List Char)) : MainResult :=
  let dirOpt : Option (List Char) :=
    match env.sparkSeedDir with
    | some d => some d
    | none =>
      match readlinkProcSelfExe env with
      | none => none
      | some exe => some (dirname exe)
  match dirOpt with
  | none => .exitFailure
  | some dir =>
    let path := dir ++ seedSuffix
    if PATH_MAX ≤ path.length then .exitFailure
    else if env.execOk path then .exec path argv
    else .exitFailure

/-- The seed directory exactly as claimed: `SPARK_SEED_DIR` when set,
otherwise the directory of the wrapper as resolved through
`/proc/self/exe`. -/
def claimedSeedDir (env : WrapEnv) : Option (List Char) :=
  match env.sparkSeedDir with
  | some d => some d
  | none => (readlinkProcSelfExe env).map dirname

/-- Well-formedness of a pool state. -/
structure PoolWF (p : Pool) : Prop where
  bpos : 0 < p.block_size
  chain : chainFrom 0 p.blocks
  total : sumLens p.blocks = p.total_size
  used : p.used_size = usedSum p.blocks
  mul : ∀ b ∈ p.blocks, p.block_size ∣ b.len

@[simp] theorem chainFrom_nil (s : Nat) : chainFrom s [] := trivial

theorem chainFrom_cons {s : Nat} {b : Block} {rest : List Block} :
    chainFrom s (b :: rest) ↔ b.offset = s ∧ chainFrom (s + b.len) rest := Iff.rfl

@[simp] theorem sumLens_nil : sumLens [] = 0 := rfl

@[simp] theorem sumLens_cons (b : Block) (rest : List Block) :
    sumLens (b :: rest) = b.len + sumLens rest := by
  simp [sumLens]

@[simp] theorem usedSum_nil : usedSum [] = 0 := rfl

theorem usedSum_cons (b : Block) (rest : List Block) :
    usedSum (b :: rest) = (if b.free then 0 else b.len) + usedSum rest := by
  cases h : b.free <;> simp [usedSum, List.filter_cons, h]

theorem allocScan_spec {need : Nat} :
    ∀ {bs bs' : List Block} {off : Nat}, allocScan bs need = some (bs', off) →
    (∀ s, chainFrom s bs → chainFrom s bs') ∧
    sumLens bs' = sumLens bs ∧
    usedSum bs' = usedSum bs + need ∧
    (∀ k, k ∣ need → (∀ b ∈ bs, k ∣ b.len) → ∀ b ∈ bs', k ∣ b.len) := by
  intro bs
  induction bs with
  | nil => intro bs' off h; simp [allocScan] at h
  | cons b rest ih =>
    intro bs' off h
    rw [allocScan] at h
    by_cases hc : b.free = true ∧ need ≤ b.len
    · rw [if_pos hc] at h
      by_cases hlt : need < b.len
      · rw [if_pos hlt] at h
        injection h with h1
        injection h1 with hbs hoff
        subst hbs
        refine ⟨?_, ?_, ?_, ?_⟩
        · intro s hch
          rcases hch with ⟨h1, h2⟩
          subst h1
          refine ⟨rfl, rfl, ?_⟩
          show chainFrom (b.offset + need + (b.len - need)) rest
          rw [Nat.add_assoc, Nat.add_sub_cancel' hc.2]
          exact h2
        · simp; omega
        · rw [usedSum_cons, usedSum_cons, usedSum_cons]
          simp [hc.1]; omega
        · intro k hk hall c hcmem
          rcases List.mem_cons.mp hcmem with rfl | hcmem'
          · exact hk
          rcases List.mem_cons.mp hcmem' with rfl | hcmem''
          · exact Nat.dvd_sub' (hall b (List.mem_cons_self b rest)) hk
          · exact hall c (List.mem_cons_of_mem b hcmem'')
      · rw [if_neg hlt] at h
        injection h with h1
        injection h1 with hbs hoff
        subst hbs
        have heq : need = b.len := Nat.le_antisymm hc.2 (Nat.le_of_not_lt hlt)
        refine ⟨?_, ?_, ?_, ?_⟩
        · intro s hch
          exact ⟨hch.1, hch.2⟩
        · simp
        · rw [usedSum_cons, usedSum_cons]
          simp [hc.1, heq]
          omega
        · intro k hk hall c hcmem
          rcases List.mem_cons.mp hcmem with rfl | hcmem'
          · exact hall b (List.mem_cons_self b rest)
          · exact hall c (List.mem_cons_of_mem b hcmem')
    · rw [if_neg hc] at h
      cases hrec : allocScan rest need with
      | none => rw [hrec] at h; cases h
      | some pr =>
        rw [hrec] at h
        obtain ⟨rest', off'⟩ := pr
        injection h with h1
        injection h1 with hbs hoff
        subst hbs
        obtain ⟨ich, isum, iused, imul⟩ := ih hrec
        refine ⟨?_, ?_, ?_, ?_⟩
        · intro s hch
          exact ⟨hch.1, ich _ hch.2⟩
        · simp [isum]
        · rw [usedSum_cons, usedSum_cons, iused]; omega
        · intro k hk hall c hcmem
          rcases List.mem_cons.mp hcmem with rfl | hcmem'
          · exact hall _ (List.mem_cons_self _ _)
          · exact imul k hk (fun d hd => hall d (List.mem_cons_of_mem b hd)) c hcmem'

theorem freeScan_spec {hdl : Nat} :
    ∀ {bs bs' : List Block} {len : Nat}, freeScan bs hdl = some (bs', len) →
    (∀ s, chainFrom s bs → chainFrom s bs') ∧
    sumLens bs' = sumLens bs ∧
    usedSum bs = usedSum bs' + len ∧
    (∀ k, (∀ b ∈ bs, k ∣ b.len) → (k ∣ len ∧ ∀ b ∈ bs', k ∣ b.len)) := by
  intro bs
  induction bs with
  | nil => intro bs' len h; simp [freeScan] at h
  | cons b rest ih =>
    intro bs' len h
    rw [freeScan] at h
    by_cases hoff : b.offset = hdl
    · rw [if_pos hoff] at h
      cases hf : b.free with
      | true => rw [hf] at h; simp at h
      | false =>
        rw [hf] at h
        simp only [Bool.false_eq_true, if_false] at h
        injection h with h1
        injection h1 with hbs hlen
        subst hbs
        refine ⟨?_, ?_, ?_, ?_⟩
        · intro s hch
          exact ⟨hch.1, hch.2⟩
        · simp
        · rw [usedSum_cons, usedSum_cons]
          simp [hf, ← hlen]
          omega
        · intro k hall
          refine ⟨hlen ▸ hall b (List.mem_cons_self b rest), ?_⟩
          intro c hcmem
          rcases List.mem_cons.mp hcmem with rfl | hcmem'
          · exact hall b (List.mem_cons_self b rest)
          · exact hall c (List.mem_cons_of_mem b hcmem')
    · rw [if_neg hoff] at h
      cases hrec : freeScan rest hdl with
      | none => rw [hrec] at h; cases h
      | some pr =>
        rw [hrec] at h
        obtain ⟨rest', len'⟩ := pr
        injection h with h1
        injection h1 with hbs hlen
        subst hbs
        subst hlen
        obtain ⟨ich, isum, iused, imul⟩ := ih hrec
        refine ⟨?_, ?_, ?_, ?_⟩
        · intro s hch
          exact ⟨hch.1, ich _ hch.2⟩
        · simp [isum]
        · rw [usedSum_cons, usedSum_cons, iused]; omega
        · intro k hall
          have hrest := imul k (fun d hd => hall d (List.mem_cons_of_mem b hd))
          refine ⟨hrest.1, ?_⟩
          intro c hcmem
          rcases List.mem_cons.mp hcmem with rfl | hcmem'
          · exact hall _ (List.mem_cons_self _ _)
          · exact hrest.2 c hcmem'

theorem coalesce_cons_nil {rest : List Block} (h : coalesce rest = []) (b : Block) :
    coalesce (b :: rest) = [b] := by
  rw [coalesce, h]

theorem coalesce_cons_cons {rest : List Block} {c : Block} {cs : List Block}
    (h : coalesce rest = c :: cs) (b : Block) :
    coalesce (b :: rest) =
      if b.free = true ∧ c.free = true then ⟨b.offset, b.len + c.len, true⟩ :: cs
      else b :: c :: cs := by
  rw [coalesce, h]

theorem coalesce_spec :
    ∀ bs : List Block,
    (∀ s, chainFrom s bs → chainFrom s (coalesce bs)) ∧
    sumLens (coalesce bs) = sumLens bs ∧
    usedSum (coalesce bs) = usedSum bs ∧
    (∀ k, (∀ b ∈ bs, k ∣ b.len) → ∀ b ∈ coalesce bs, k ∣ b.len) := by
  intro bs
  induction bs with
  | nil => simp [coalesce]
  | cons b rest ih =>
    obtain ⟨ich, isum, iused, imul⟩ := ih
    cases hco : coalesce rest with
    | nil =>
      rw [coalesce_cons_nil hco b]
      rw [hco] at isum iused
      refine ⟨?_, ?_, ?_, ?_⟩
      · intro s hch
        exact ⟨hch.1, trivial⟩
      · rw [sumLens_cons]
        simp at isum
        simp [← isum]
      · rw [usedSum_cons, usedSum_cons]
        simp at iused
        simp [← iused]
      · intro k hall d hd
        rcases List.mem_cons.mp hd with rfl | hd'
        · exact hall _ (List.mem_cons_self _ _)
        · cases hd'
    | cons c cs =>
      rw [coalesce_cons_cons hco b]
      rw [hco] at isum iused
      by_cases hm : b.free = true ∧ c.free = true
      · rw [if_pos hm]
        refine ⟨?_, ?_, ?_, ?_⟩
        · intro s hch
          have hch2 := ich _ hch.2
          rw [hco] at hch2
          refine ⟨hch.1, ?_⟩
          show chainFrom (s + (b.len + c.len)) cs
          rw [← Nat.add_assoc]
          exact hch2.2
        · rw [sumLens_cons, sumLens_cons]
          rw [sumLens_cons] at isum
          simp
          omega
        · rw [usedSum_cons, usedSum_cons]
          rw [usedSum_cons] at iused
          simp [hm.1, hm.2] at iused ⊢
          omega
        · intro k hall d hd
          have hrest : ∀ x ∈ rest, k ∣ x.len :=
            fun x hx => hall x (List.mem_cons_of_mem b hx)
          rcases List.mem_cons.mp hd with rfl | hd'
          · have hkb := hall b (List.mem_cons_self b rest)
            have hkc : k ∣ c.len := by
              refine imul k hrest c ?_
              rw [hco]
              exact List.mem_cons_self c cs
            simpa using Nat.dvd_add hkb hkc
          · refine imul k hrest d ?_
            rw [hco]
            exact List.mem_cons_of_mem c hd'
      · rw [if_neg hm]
        refine ⟨?_, ?_, ?_, ?_⟩
        · intro s hch
          have hch2 := ich _ hch.2
          rw [hco] at hch2
          exact ⟨hch.1, hch2⟩
        · rw [sumLens_cons, sumLens_cons, sumLens_cons]
          rw [sumLens_cons] at isum
          omega
        · rw [usedSum_cons, usedSum_cons, usedSum_cons]
          rw [usedSum_cons] at iused
          omega
        · intro k hall d hd
          have hrest : ∀ x ∈ rest, k ∣ x.len :=
            fun x hx => hall x (List.mem_cons_of_mem b hx)
          rcases List.mem_cons.mp hd with rfl | hd'
          · exact hall _ (List.mem_cons_self _ _)
          · refine imul k hrest d ?_
            rw [hco]
            exact hd'

theorem usedSum_le_sumLens (bs : List Block) : usedSum bs ≤ sumLens bs := by
  induction bs with
  | nil => simp
  | cons b rest ih =>
    rw [usedSum_cons, sumLens_cons]
    cases h : b.free <;> simp <;> omega

theorem dvd_usedSum {k : Nat} {bs : List Block} (h : ∀ b ∈ bs, k ∣ b.len) :
    k ∣ usedSum bs := by
  induction bs with
  | nil => simp
  | cons b rest ih =>
    rw [usedSum_cons]
    have hb := h b (List.mem_cons_self b rest)
    have hrest := ih fun c hc => h c (List.mem_cons_of_mem b hc)
    cases hf : b.free
    · simpa using Nat.dvd_add hb hrest
    · simpa using hrest

theorem chainFrom_le_offset {s : Nat} {bs : List Block} (h : chainFrom s bs) :
    ∀ b ∈ bs, s ≤ b.offset := by
  induction bs generalizing s with
  | nil => intro b hb; cases hb
  | cons c rest ih =>
    intro b hb
    rcases List.mem_cons.mp hb with rfl | hb'
    · exact h.1.ge
    · exact le_trans (Nat.le_add_right s c.len) (ih h.2 b hb')

theorem chainFrom_bounds {s : Nat} {bs : List Block} (h : chainFrom s bs) :
    ∀ b ∈ bs, b.offset + b.len ≤ s + sumLens bs := by
  induction bs generalizing s with
  | nil => intro b hb; cases hb
  | cons c rest ih =>
    intro b hb
    rcases List.mem_cons.mp hb with rfl | hb'
    · rw [sumLens_cons, h.1]; omega
    · have := ih h.2 b hb'
      rw [sumLens_cons]; omega

theorem chainFrom_pairwise {s : Nat} {bs : List Block} (h : chainFrom s bs) :
    List.Pairwise (fun a b => a.offset + a.len ≤ b.offset) bs := by
  induction bs generalizing s with
  | nil => exact List.Pairwise.nil
  | cons c rest ih =>
    refine List.Pairwise.cons ?_ (ih h.2)
    intro b hb
    have := chainFrom_le_offset h.2 b hb
    rw [h.1]; omega

theorem wf_create {total bsz : Nat} {p : Pool}
    (h : Pool.create total bsz = .ok p) : PoolWF p := by
  rw [Pool.create] at h
  by_cases hc : bsz = 0 ∨ total = 0 ∨ total % bsz ≠ 0
  · rw [if_pos hc] at h; cases h
  · rw [if_neg hc] at h
    injection h with h1
    subst h1
    push_neg at hc
    obtain ⟨h0, _, hmod⟩ := hc
    refine ⟨Nat.pos_of_ne_zero h0, ⟨rfl, trivial⟩, by simp, by simp [usedSum], ?_⟩
    intro b hb
    rcases List.mem_cons.mp hb with rfl | hb'
    · exact Nat.dvd_iff_mod_eq_zero.mpr (by simpa using hmod)
    · cases hb'

theorem wf_allocate {p p' : Pool} {size off : Nat}
    (hwf : PoolWF p) (h : p.allocate size = .ok (p', off)) : PoolWF p' := by
  rw [Pool.allocate] at h
  cases hscan : allocScan p.blocks (roundUp size p.block_size) with
  | none => rw [hscan] at h; cases h
  | some pr =>
    rw [hscan] at h
    obtain ⟨bs, off'⟩ := pr
    injection h with h1
    injection h1 with hp hoff
    subst hp
    obtain ⟨ich, isum, iused, imul⟩ := allocScan_spec hscan
    have hdvd : p.block_size ∣ roundUp size p.block_size := dvd_mul_left _ _
    exact ⟨hwf.bpos, ich 0 hwf.chain, by rw [isum]; exact hwf.total,
      by rw [iused, hwf.used], imul _ hdvd hwf.mul⟩

theorem wf_free {p p' : Pool} {hdl : Nat}
    (hwf : PoolWF p) (h : p.free hdl = .ok p') : PoolWF p' := by
  rw [Pool.free] at h
  cases hscan : freeScan p.blocks hdl with
  | none => rw [hscan] at h; cases h
  | some pr =>
    rw [hscan] at h
    obtain ⟨bs, len⟩ := pr
    injection h with h1
    subst h1
    obtain ⟨ich, isum, iused, imul⟩ := freeScan_spec hscan
    obtain ⟨cch, csum, cused, cmul⟩ := coalesce_spec bs
    refine ⟨hwf.bpos, cch 0 (ich 0 hwf.chain), ?_, ?_, ?_⟩
    · show sumLens (coalesce bs) = p.total_size
      rw [csum, isum]; exact hwf.total
    · show p.used_size - len = usedSum (coalesce bs)
      rw [cused, hwf.used, iused]; omega
    · exact cmul _ ((imul _ hwf.mul).2)

theorem wf_applyOp {p : Pool} (hwf : PoolWF p) (op : PoolOp) :
    PoolWF (applyOp p op) := by
  cases op with
  | alloc s =>
    rw [applyOp]
    cases h : p.allocate s with
    | ok pr => obtain ⟨p', off⟩ := pr; exact wf_allocate hwf h
    | error e => exact hwf
  | dealloc hd =>
    rw [applyOp]
    cases h : p.free hd with
    | ok p' => exact wf_free hwf h
    | error e => exact hwf

theorem wf_runOps {p : Pool} (hwf : PoolWF p) (ops : List PoolOp) :
    PoolWF (runOps p ops) := by
  induction ops generalizing p with
  | nil => exact hwf
  | cons op rest ih => exact ih (wf_applyOp hwf op)

/-- A well-formed pool satisfies the spec invariants: bounded and aligned
used size, in-bounds blocks, pairwise-disjoint live blocks. -/
theorem wf_invariants {p : Pool} (hwf : PoolWF p) :
    p.used_size ≤ p.total_size ∧
    p.block_size ∣ p.used_size ∧
    (∀ b ∈ p.blocks, b.offset + b.len ≤ p.total_size) ∧
    List.Pairwise (fun a b => a.offset + a.len ≤ b.offset ∨ b.offset + b.len ≤ a.offset)
      (p.blocks.filter fun b => !b.free) := by
  refine ⟨?_, ?_, ?_, ?_⟩
  · rw [hwf.used, ← hwf.total]
    exact usedSum_le_sumLens p.blocks
  · rw [hwf.used]
    exact dvd_usedSum hwf.mul
  · intro b hb
    have := chainFrom_bounds hwf.chain b hb
    rwa [hwf.total, Nat.zero_add] at this
  · have hpw := chainFrom_pairwise hwf.chain
    exact (hpw.sublist (List.filter_sublist _)).imp fun h => Or.inl h

theorem sparkwrapMain_cases (env : WrapEnv) (argv : List (List Char)) :
    sparkwrapMain env argv =
      match claimedSeedDir env with
      | none => .exitFailure
      | some dir =>
        if PATH_MAX ≤ (dir ++ seedSuffix).length then .exitFailure
        else if env.execOk (dir ++ seedSuffix) then .exec (dir ++ seedSuffix) argv
        else .exitFailure := by
  unfold sparkwrapMain claimedSeedDir
  cases henv : env.sparkSeedDir with
  | some d => simp
  | none =>
    cases hrl : readlinkProcSelfExe env with
    | none => simp [hrl]
    | some exe => simp [hrl]

/-- C9: every invocation of the seed wrapper that reaches `execv` executes
the binary at `dir ++ "/zig-out/bin/seed"` with the caller argv passed
unchanged, where `dir` is the value of `SPARK_SEED_DIR` when set and
otherwise the directory of the wrapper executable as resolved through
`/proc/self/exe`. -/
theorem sparkwrap_exec_is_seed_under_dir (env : WrapEnv) (argv : List (List Char))
    (p : List Char) (args : List (List Char))
    (h : sparkwrapMain env argv = .exec p args) :
    args = argv ∧ ∃ d, claimedSeedDir env = some d ∧ p = d ++ seedSuffix := by
  rw [sparkwrapMain_cases] at h
  cases hd : claimedSeedDir env with
  | none => simp only [hd] at h; cases h
  | some dir =>
    simp only [hd] at h
    by_cases hfit : PATH_MAX ≤ (dir ++ seedSuffix).length
    · rw [if_pos hfit] at h; cases h
    · rw [if_neg hfit] at h
      by_cases hex : env.execOk (dir ++ seedSuffix) = true
      · rw [if_pos hex] at h
        injection h with h1 h2
        exact ⟨h2.symm, dir, rfl, h1.symm⟩
      · rw [if_neg hex] at h; cases h

theorem sparkwrap_exec_is_seed_under_dir_witness :
    ([] : List (List Char)) = [] ∧
      ∃ d, claimedSeedDir ⟨some ("/opt".toList), none, fun _ => true⟩ = some d ∧
        "/opt".toList ++ seedSuffix = d ++ seedSuffix :=
  sparkwrap_exec_is_seed_under_dir ⟨some ("/opt".toList), none, fun _ => true⟩ []
    ("/opt".toList ++ seedSuffix) [] rfl

/-- C10: the seed wrapper never executes a truncated path: when the
constructed path cannot fit a `PATH_MAX` buffer, or when `readlink` on
`/proc/self/exe` is needed but fails, or when `execv` itself fails, `main`
returns exit code 1; and any path actually handed to `execv` is the whole
constructed string and fits the buffer with its terminator. -/
theorem sparkwrap_never_truncated (env : WrapEnv) (argv : List (List Char)) :
    (∀ d, claimedSeedDir env = some d → PATH_MAX ≤ (d ++ seedSuffix).length →
      sparkwrapMain env argv = .exitFailure) ∧
    (env.sparkSeedDir = none → env.procSelfExe = none →
      sparkwrapMain env argv = .exitFailure) ∧
    (∀ d, claimedSeedDir env = some d → (d ++ seedSuffix).length < PATH_MAX →
      env.execOk (d ++ seedSuffix) = false → sparkwrapMain env argv = .exitFailure) ∧
    (∀ p args, sparkwrapMain env argv = .exec p args →
      p.length < PATH_MAX ∧ env.execOk p = true ∧
      ∃ d, claimedSeedDir env = some d ∧ p = d ++ seedSuffix) := by
  refine ⟨?_, ?_, ?_, ?_⟩
  · intro d hd hlong
    rw [sparkwrapMain_cases]
    simp only [hd]
    rw [if_pos hlong]
  · intro h1 h2
    have hnone : claimedSeedDir env = none := by
      rw [claimedSeedDir, h1, readlinkProcSelfExe, h2]
      rfl
    rw [sparkwrapMain_cases]
    simp only [hnone]
  · intro d hd hfit hex
    rw [sparkwrapMain_cases]
    simp only [hd]
    rw [if_neg (Nat.not_le.mpr hfit), if_neg (by simp [hex])]
  · intro p args h
    rw [sparkwrapMain_cases] at h
    cases hd : claimedSeedDir env with
    | none => simp only [hd] at h; cases h
    | some dir =>
      simp only [hd] at h
      by_cases hfit : PATH_MAX ≤ (dir ++ seedSuffix).length
      · rw [if_pos hfit] at h; cases h
      · rw [if_neg hfit] at h
        by_cases hex : env.execOk (dir ++ seedSuffix) = true
        · rw [if_pos hex] at h
          injection h with h1 h2
          subst h1
          exact ⟨Nat.lt_of_not_le hfit, hex, dir, rfl, rfl⟩
        · rw [if_neg hex] at h; cases h

theorem sparkwrap_never_truncated_witness :
    sparkwrapMain ⟨some (List.replicate 4090 'a'), none, fun _ => true⟩ [] =
      .exitFailure :=
  (sparkwrap_never_truncated ⟨some (List.replicate 4090 'a'), none, fun _ => true⟩ []).1
    (List.replicate 4090 'a') rfl
    (by
      have h17 : seedSuffix.length = 17 := rfl
      rw [List.length_append, List.length_replicate, h17]
      decide)

/-! ### State evolution theorems -/

theorem collapseThreshold_pos : 0 < collapseThreshold := by
  rw [collapseThreshold]; norm_num

theorem evolve_ok_formula (s : QuantumState) (dt : ℝ)
    (h1 : s.is_collapsed = false) (h2 : 0 ≤ dt) :
    evolve s dt =
      if s.coherence * Real.exp (-s.decay_rate * dt) < collapseThreshold then
        .ok { s with coherence := 0,
                     phase := phaseMod (s.phase + 2 * Real.pi * s.frequency * dt),
                     is_collapsed := true }
      else
        .ok { s with coherence := s.coherence * Real.exp (-s.decay_rate * dt),
                     phase := phaseMod (s.phase + 2 * Real.pi * s.frequency * dt) } := by
  rw [evolve, h1]
  rw [if_neg (by simp), if_neg (not_lt.mpr h2)]

theorem evolve_ok_shape {s s' : QuantumState} {dt : ℝ} (h : evolve s dt = .ok s') :
    s.is_collapsed = false ∧ ¬dt < 0 ∧
    s'.amplitude = s.amplitude ∧ s'.energy_level = s.energy_level ∧
    s'.decay_rate = s.decay_rate ∧ s'.frequency = s.frequency ∧
    ((s.coherence * Real.exp (-s.decay_rate * dt) < collapseThreshold ∧
        s'.coherence = 0 ∧ s'.is_collapsed = true) ∨
      (collapseThreshold ≤ s.coherence * Real.exp (-s.decay_rate * dt) ∧
        s'.coherence = s.coherence * Real.exp (-s.decay_rate * dt) ∧
        s'.is_collapsed = s.is_collapsed)) := by
  simp only [evolve] at h
  by_cases h1 : s.is_collapsed = true
  · rw [if_pos h1] at h; cases h
  · rw [if_neg h1] at h
    have hfalse : s.is_collapsed = false := by simp at h1; exact h1
    by_cases h2 : dt < 0
    · rw [if_pos h2] at h; cases h
    · rw [if_neg h2] at h
      by_cases h3 : s.coherence * Real.exp (-s.decay_rate * dt) < collapseThreshold
      · rw [if_pos h3] at h
        injection h with h'
        subst h'
        exact ⟨hfalse, h2, rfl, rfl, rfl, rfl, Or.inl ⟨h3, rfl, rfl⟩⟩
      · rw [if_neg h3] at h
        injection h with h'
        subst h'
        exact ⟨hfalse, h2, rfl, rfl, rfl, rfl, Or.inr ⟨not_lt.mp h3, rfl, rfl⟩⟩

theorem evolveStep_collapsed {s : QuantumState} (h : s.is_collapsed = true) (dt : ℝ) :
    evolveStep dt s = s := by
  rw [evolveStep, evolve, if_pos h]

theorem evolveStep_active {s : QuantumState} (h1 : s.is_collapsed = false) {dt : ℝ}
    (h2 : 0 ≤ dt) :
    evolveStep dt s =
      if s.coherence * Real.exp (-s.decay_rate * dt) < collapseThreshold then
        { s with coherence := 0,
                 phase := phaseMod (s.phase + 2 * Real.pi * s.frequency * dt),
                 is_collapsed := true }
      else
        { s with coherence := s.coherence * Real.exp (-s.decay_rate * dt),
                 phase := phaseMod (s.phase + 2 * Real.pi * s.frequency * dt) } := by
  rw [evolveStep, evolve_ok_formula s dt h1 h2]
  by_cases hlt : s.coherence * Real.exp (-s.decay_rate * dt) < collapseThreshold
  · rw [if_pos hlt, if_pos hlt]
  · rw [if_neg hlt, if_neg hlt]

theorem evolveStep_props (s : QuantumState) (dt : ℝ) :
    (evolveStep dt s).decay_rate = s.decay_rate ∧
    (0 ≤ s.coherence → 0 ≤ (evolveStep dt s).coherence) ∧
    (0 ≤ s.coherence → 0 ≤ s.decay_rate → 0 ≤ dt →
      (evolveStep dt s).coherence ≤ s.coherence) := by
  rw [evolveStep]
  cases hev : evolve s dt with
  | error e => exact ⟨rfl, fun h => h, fun _ _ _ => le_rfl⟩
  | ok s' =>
    obtain ⟨hcol, hdt, _, _, hdr, _, hor⟩ := evolve_ok_shape hev
    refine ⟨hdr, ?_, ?_⟩
    · intro hc
      rcases hor with ⟨_, hc0, _⟩ | ⟨_, hc', _⟩
      · rw [hc0]
      · rw [hc']
        exact mul_nonneg hc (Real.exp_pos _).le
    · intro hc hl hd
      rcases hor with ⟨_, hc0, _⟩ | ⟨_, hc', _⟩
      · rw [hc0]; exact hc
      · rw [hc']
        have hexp : Real.exp (-s.decay_rate * dt) ≤ 1 := by
          calc Real.exp (-s.decay_rate * dt) ≤ Real.exp 0 :=
                Real.exp_le_exp.mpr (by nlinarith)
          _ = 1 := Real.exp_zero
        exact mul_le_of_le_one_right hc hexp

theorem evolveIter_succ (dt : ℝ) (n : Nat) (s : QuantumState) :
    evolveIter dt (n + 1) s = evolveStep dt (evolveIter dt n s) := by
  induction n generalizing s with
  | zero => rfl
  | succ n ih =>
    show evolveIter dt (n + 1) (evolveStep dt s) = _
    rw [ih (evolveStep dt s)]
    rfl

theorem evolveIter_inv (dt : ℝ) (s : QuantumState) (n : Nat) :
    (evolveIter dt n s).decay_rate = s.decay_rate ∧
    (0 ≤ s.coherence → 0 ≤ (evolveIter dt n s).coherence) := by
  induction n with
  | zero => exact ⟨rfl, fun h => h⟩
  | succ n ih =>
    rw [evolveIter_succ]
    obtain ⟨hdr, hnn⟩ := ih
    have hp := evolveStep_props (evolveIter dt n s) dt
    exact ⟨by rw [hp.1, hdr], fun h => hp.2.1 (hnn h)⟩

theorem evolveIter_trajectory (dt : ℝ) (s : QuantumState)
    (hcol : s.is_collapsed = false) (hdt : 0 ≤ dt) (n : Nat) :
    ((evolveIter dt n s).is_collapsed = true ∧ (evolveIter dt n s).coherence = 0) ∨
    ((evolveIter dt n s).is_collapsed = false ∧
      (evolveIter dt n s).coherence =
        s.coherence * Real.exp (-s.decay_rate * dt) ^ n) := by
  induction n with
  | zero => right; exact ⟨hcol, by simp [evolveIter]⟩
  | succ n ih =>
    rw [evolveIter_succ]
    rcases ih with ⟨h1, h2⟩ | ⟨h1, h2⟩
    · left
      rw [evolveStep_collapsed h1]
      exact ⟨h1, h2⟩
    · have hdr := (evolveIter_inv dt s n).1
      rw [evolveStep_active h1 hdt]
      by_cases hlt : (evolveIter dt n s).coherence *
          Real.exp (-(evolveIter dt n s).decay_rate * dt) < collapseThreshold
      · rw [if_pos hlt]
        left
        exact ⟨rfl, rfl⟩
      · rw [if_neg hlt]
        right
        refine ⟨h1, ?_⟩
        show (evolveIter dt n s).coherence *
            Real.exp (-(evolveIter dt n s).decay_rate * dt) = _
        rw [h2, hdr, pow_succ]
        ring

theorem evolveIter_collapsed_persist (dt : ℝ) (s : QuantumState) (n : Nat)
    (h : (evolveIter dt n s).is_collapsed = true ∧ (evolveIter dt n s).coherence = 0) :
    ∀ m, n ≤ m →
      (evolveIter dt m s).is_collapsed = true ∧ (evolveIter dt m s).coherence = 0 := by
  intro m hm
  refine Nat.le_induction h ?_ m hm
  intro k _ ih
  rw [evolveIter_succ, evolveStep_collapsed ih.1]
  exact ih

theorem exists_collapse (dt : ℝ) (s : QuantumState) (hc0 : 0 ≤ s.coherence)
    (hlam : 0 < s.decay_rate) (hcol : s.is_collapsed = false) (hdt : 0 < dt) :
    ∃ N, ∀ n, N ≤ n →
      (evolveIter dt n s).is_collapsed = true ∧ (evolveIter dt n s).coherence = 0 := by
  set r := Real.exp (-s.decay_rate * dt) with hr
  have hr0 : 0 < r := Real.exp_pos _
  have hr1 : r < 1 := by
    have hneg : -s.decay_rate * dt < 0 := by
      have := mul_pos hlam hdt
      linarith
    calc r < Real.exp 0 := Real.exp_lt_exp.mpr hneg
    _ = 1 := Real.exp_zero
  have hden : (0:ℝ) < s.coherence + 1 := by linarith
  obtain ⟨N, hN⟩ :=
    exists_pow_lt_of_lt_one (div_pos collapseThreshold_pos hden) hr1
  have hcN : s.coherence * r ^ N < collapseThreshold := by
    have hrpow : (0:ℝ) ≤ r ^ N := pow_nonneg hr0.le N
    have h1 : s.coherence * r ^ N ≤ (s.coherence + 1) * r ^ N := by nlinarith
    have h2 : (s.coherence + 1) * r ^ N <
        (s.coherence + 1) * (collapseThreshold / (s.coherence + 1)) :=
      mul_lt_mul_of_pos_left hN hden
    have h3 : (s.coherence + 1) * (collapseThreshold / (s.coherence + 1)) =
        collapseThreshold := by
      field_simp
    linarith
  have hbase : (evolveIter dt (N + 1) s).is_collapsed = true ∧
      (evolveIter dt (N + 1) s).coherence = 0 := by
    rcases evolveIter_trajectory dt s hcol hdt.le N with hA | ⟨h1, h2⟩
    · exact evolveIter_collapsed_persist dt s N hA (N + 1) (Nat.le_succ N)
    · rw [evolveIter_succ, evolveStep_active h1 hdt.le]
      have hdr := (evolveIter_inv dt s N).1
      have hlt : (evolveIter dt N s).coherence *
          Real.exp (-(evolveIter dt N s).decay_rate * dt) < collapseThreshold := by
        rw [h2, hdr, ← hr]
        have hrpow : (0:ℝ) ≤ r ^ N := pow_nonneg hr0.le N
        have hmono := mul_le_of_le_one_right (mul_nonneg hc0 hrpow) hr1.le
        calc s.coherence * r ^ N * r ≤ s.coherence * r ^ N := hmono
        _ < collapseThreshold := hcN
      rw [if_pos hlt]
      exact ⟨rfl, rfl⟩
  exact ⟨N + 1, fun n hn => evolveIter_collapsed_persist dt s (N + 1) hbase n hn⟩

/-- C3 counterexample: at coherence epsilon/2 (with decay rate 1 and
dt = 0) a successful `evolve` clamps the new coherence to 0, not to
`coherence * exp(-lambda * dt)` as the claim states. -/
theorem evolve_formula_counterexample :
    ∃ s', evolve ⟨1 / 2000000, 0, 1, 0, false, 1, 0⟩ 0 = .ok s' ∧
      s'.coherence ≠
        (⟨1 / 2000000, 0, 1, 0, false, 1, 0⟩ : QuantumState).coherence *
          Real.exp (-(⟨1 / 2000000, 0, 1, 0, false, 1, 0⟩ : QuantumState).decay_rate * 0) := by
  have hev := evolve_ok_formula ⟨1 / 2000000, 0, 1, 0, false, 1, 0⟩ 0 rfl le_rfl
  rw [if_pos (by
    show (1:ℝ) / 2000000 * Real.exp (-(1:ℝ) * 0) < collapseThreshold
    rw [collapseThreshold]
    simp
    norm_num)] at hev
  refine ⟨_, hev, ?_⟩
  show (0:ℝ) ≠ (1:ℝ) / 2000000 * Real.exp (-(1:ℝ) * 0)
  simp

/-- C3 (amended): for every non-collapsed state and dt ≥ 0, a successful
evolve sets the new coherence to `coherence * exp(-lambda * dt)` whenever
that value is at least the collapse threshold; when it is below the
threshold the coherence is instead clamped to 0 and the state collapses.
The new phase is `(phase + 2*pi*frequency*dt) mod 2*pi` in both cases, and
the energy level (and amplitude) are unchanged. -/
theorem evolve_formula_amended (s : QuantumState) (dt : ℝ)
    (h1 : s.is_collapsed = false) (h2 : 0 ≤ dt) :
    ∃ s', evolve s dt = .ok s' ∧
      s'.phase = phaseMod (s.phase + 2 * Real.pi * s.frequency * dt) ∧
      s'.energy_level = s.energy_level ∧
      s'.amplitude = s.amplitude ∧
      (collapseThreshold ≤ s.coherence * Real.exp (-s.decay_rate * dt) →
        s'.coherence = s.coherence * Real.exp (-s.decay_rate * dt) ∧
        s'.is_collapsed = false) ∧
      (s.coherence * Real.exp (-s.decay_rate * dt) < collapseThreshold →
        s'.coherence = 0 ∧ s'.is_collapsed = true) := by
  rw [evolve_ok_formula s dt h1 h2]
  by_cases hlt : s.coherence * Real.exp (-s.decay_rate * dt) < collapseThreshold
  · rw [if_pos hlt]
    exact ⟨_, rfl, rfl, rfl, rfl,
      fun hge => absurd hlt (not_lt.mpr hge), fun _ => ⟨rfl, rfl⟩⟩
  · rw [if_neg hlt]
    exact ⟨_, rfl, rfl, rfl, rfl,
      fun _ => ⟨rfl, h1⟩, fun hlt' => absurd hlt' hlt⟩

theorem evolve_formula_amended_witness :
    ∃ s', evolve ⟨1, 0, 1, 0, false, 0, 0⟩ 1 = .ok s' ∧
      s'.phase = phaseMod (0 + 2 * Real.pi * 0 * 1) ∧
      s'.energy_level = 0 ∧
      s'.amplitude = 1 ∧
      (collapseThreshold ≤ 1 * Real.exp (-0 * 1) →
        s'.coherence = 1 * Real.exp (-0 * 1) ∧ s'.is_collapsed = false) ∧
      (1 * Real.exp (-0 * 1) < collapseThreshold →
        s'.coherence = 0 ∧ s'.is_collapsed = true) :=
  evolve_formula_amended ⟨1, 0, 1, 0, false, 0, 0⟩ 1 rfl zero_le_one

/-- C4: for decay rate lambda > 0 (the fixed collapse threshold is
positive), iterating evolve with any fixed dt ≥ 0 never increases the
coherence; for dt > 0 some finite iterate is collapsed with coherence
exactly 0 and every later iterate stays so; and a collapsed state is
terminal: every evolve call on it fails and leaves it unchanged. -/
theorem evolve_iterates_decay_and_collapse (s : QuantumState) (dt : ℝ)
    (hc0 : 0 ≤ s.coherence) (hlam : 0 < s.decay_rate) (hcol : s.is_collapsed = false) :
    (0 ≤ dt → ∀ n, (evolveIter dt (n + 1) s).coherence ≤ (evolveIter dt n s).coherence) ∧
    (0 < dt → ∃ N, ∀ n, N ≤ n →
      (evolveIter dt n s).is_collapsed = true ∧ (evolveIter dt n s).coherence = 0) ∧
    (∀ t : QuantumState, t.is_collapsed = true → ∀ d : ℝ,
      evolve t d = .error .AlreadyCollapsed ∧ evolveStep d t = t) := by
  refine ⟨?_, ?_, ?_⟩
  · intro hdt n
    rw [evolveIter_succ]
    obtain ⟨hdr, hnn⟩ := evolveIter_inv dt s n
    exact (evolveStep_props _ dt).2.2 (hnn hc0) (by rw [hdr]; exact hlam.le) hdt
  · intro hdt
    exact exists_collapse dt s hc0 hlam hcol hdt
  · intro t ht d
    exact ⟨by rw [evolve, if_pos ht], evolveStep_collapsed ht d⟩

theorem evolve_iterates_decay_and_collapse_witness :
    (evolveIter 1 (0 + 1) ⟨1, 0, 1, 0, false, 1, 0⟩).coherence ≤
      (evolveIter 1 0 ⟨1, 0, 1, 0, false, 1, 0⟩).coherence :=
  (evolve_iterates_decay_and_collapse ⟨1, 0, 1, 0, false, 1, 0⟩ 1
    zero_le_one one_pos rfl).1 zero_le_one 0

/-- C5: evolve on a collapsed state always fails with `AlreadyCollapsed`
and mutates nothing (as a total step it returns the state unchanged, so
phase and amplitude are untouched); and evolve rejects every call with
dt < 0, producing no successor state. -/
theorem evolve_rejects_collapsed_and_negative (s : QuantumState) (dt : ℝ) :
    (s.is_collapsed = true → evolve s dt = .error .AlreadyCollapsed) ∧
    (s.is_collapsed = true → evolveStep dt s = s) ∧
    (dt < 0 → ∀ s', evolve s dt ≠ .ok s') := by
  refine ⟨?_, ?_, ?_⟩
  · intro h
    rw [evolve, if_pos h]
  · intro h
    exact evolveStep_collapsed h dt
  · intro h s' hcon
    have := (evolve_ok_shape hcon).2.1
    exact this h

theorem evolve_rejects_witness :
    evolve ⟨0, 0, 1, 0, true, 1, 0⟩ 1 = .error .AlreadyCollapsed ∧
      evolveStep 1 ⟨0, 0, 1, 0, true, 1, 0⟩ = ⟨0, 0, 1, 0, true, 1, 0⟩ :=
  ⟨(evolve_rejects_collapsed_and_negative ⟨0, 0, 1, 0, true, 1, 0⟩ 1).1 rfl,
   (evolve_rejects_collapsed_and_negative ⟨0, 0, 1, 0, true, 1, 0⟩ 1).2.1 rfl⟩

/-! ### Wave interference theorems -/

theorem interfCoeff_comm (pa pb x y : ℝ) :
    interfCoeff pa pb x y = interfCoeff pb pa y x := by
  unfold interfCoeff
  have h1 : Real.cos (pb - pa) = Real.cos (pa - pb) := by
    rw [← neg_sub pa pb, Real.cos_neg]
  rw [h1, mul_comm y x]
  ring

/-- C6: for wave signals with equal coefficient lengths, interference of
`a` with `b` and of `b` with `a` (phases swapped accordingly) both succeed
and produce identical coefficient arrays; the inputs are never mutated
(the operation builds a fresh signal). -/
theorem interference_comm (a b : WaveSignal) (pa pb : ℝ)
    (h : a.coefficients.length = b.coefficients.length) :
    ∃ r r', interference a b pa pb = .ok r ∧ interference b a pb pa = .ok r' ∧
      r.coefficients = r'.coefficients := by
  refine ⟨_, _, by rw [interference, if_pos h], by rw [interference, if_pos h.symm], ?_⟩
  show List.zipWith (interfCoeff pa pb) a.coefficients b.coefficients =
    List.zipWith (interfCoeff pb pa) b.coefficients a.coefficients
  rw [List.zipWith_comm (interfCoeff pa pb)]
  have hfun : (fun y x => interfCoeff pa pb x y) = interfCoeff pb pa := by
    funext y x
    rw [interfCoeff_comm pa pb x y]
  rw [hfun]

theorem interference_comm_witness :
    ∃ r r', interference ⟨[1, 2], 0, 0⟩ ⟨[3, 4], 1, 1⟩ 0 1 = .ok r ∧
      interference ⟨[3, 4], 1, 1⟩ ⟨[1, 2], 0, 0⟩ 1 0 = .ok r' ∧
      r.coefficients = r'.coefficients :=
  interference_comm ⟨[1, 2], 0, 0⟩ ⟨[3, 4], 1, 1⟩ 0 1 rfl

/-! ### Cache sweep theorems -/

theorem mem_capacityEvict {cfg : CacheConfig} {l : List CacheEntry} {e : CacheEntry}
    (h : e ∈ capacityEvict cfg l) : e ∈ l := by
  rw [capacityEvict] at h
  split at h
  · exact h
  · exact (List.mem_filter.mp h).1

theorem mem_sweep {cfg : CacheConfig} {entries : List CacheEntry} {dt : ℝ}
    {e' : CacheEntry} (h : e' ∈ sweep cfg dt entries) :
    ∃ e ∈ entries,
      ¬((decayEntry dt e).is_volatile = true ∧ (decayEntry dt e).coherence < cfg.floor) ∧
      e' = promoteEntry cfg.generations (decayEntry dt e) := by
  rw [sweep] at h
  have h1 := mem_capacityEvict h
  obtain ⟨k, hk, rfl⟩ := List.mem_map.mp h1
  obtain ⟨hk1, hk2⟩ := List.mem_filter.mp hk
  obtain ⟨e, he, rfl⟩ := List.mem_map.mp hk1
  refine ⟨e, he, ?_, rfl⟩
  rcases (by simpa using hk2 :
      (decayEntry dt e).is_volatile = false ∨
        cfg.floor ≤ (decayEntry dt e).coherence) with hfv | hge
  · rintro ⟨hva, _⟩
    rw [hva] at hfv
    cases hfv
  · rintro ⟨_, hcb⟩
    exact absurd hcb (not_lt.mpr hge)

/-- C1: after `sweep`, no resident entry is both volatile and below the
coherence floor; and (keys being unique) every entry that is volatile with
decayed coherence below the floor is evicted within that same sweep — no
entry with its key survives, with no second chance. -/
theorem sweep_floor_invariant (cfg : CacheConfig) (entries : List CacheEntry) (dt : ℝ) :
    (∀ e' ∈ sweep cfg dt entries, e'.is_volatile = true → cfg.floor ≤ e'.coherence) ∧
    ((entries.map CacheEntry.key).Nodup →
      ∀ e ∈ entries, e.is_volatile = true →
        (decayEntry dt e).coherence < cfg.floor →
        ∀ e' ∈ sweep cfg dt entries, e'.key ≠ e.key) := by
  constructor
  · intro e' he' hv
    obtain ⟨e, _, hkeep, rfl⟩ := mem_sweep he'
    have hvol : (decayEntry dt e).is_volatile = true := hv
    exact not_lt.mp (not_and.mp hkeep hvol)
  · intro hnodup e he hv hlt e' he' hkey
    obtain ⟨e0, he0, hkeep, rfl⟩ := mem_sweep he'
    have hk : e0.key = e.key := hkey
    have he0e : e0 = e := List.inj_on_of_nodup_map hnodup he0 he hk
    subst he0e
    exact hkeep ⟨hv, hlt⟩

theorem decayEntry_zero (e : CacheEntry) : decayEntry 0 e = e := by
  rw [decayEntry]
  have h : e.coherence * Real.exp (-e.decay_rate * 0) = e.coherence := by
    simp
  rw [h]

theorem sweep_floor_invariant_witness :
    (1:ℝ) / 10 ≤ (⟨1, 0, 1, 5, true, 1, 1⟩ : CacheEntry).coherence := by
  have hdf : decide ((1:ℝ) < 1 / 10) = false := decide_eq_false (by norm_num)
  have hsweep : sweep ⟨10, 2, 1 / 10⟩ 0 [⟨1, 0, 1, 5, true, 0, 1⟩] =
      [⟨1, 0, 1, 5, true, 1, 1⟩] := by
    rw [sweep]
    simp only [List.map_cons, List.map_nil, decayEntry_zero, List.filter_cons,
      List.filter_nil, hdf, Bool.and_false, Bool.not_false, if_pos, promoteEntry]
    norm_num [capacityEvict]
  exact (sweep_floor_invariant ⟨10, 2, 1 / 10⟩ [⟨1, 0, 1, 5, true, 0, 1⟩] 0).1
    ⟨1, 0, 1, 5, true, 1, 1⟩ (by rw [hsweep]; exact List.mem_singleton_self _) rfl

/-! ### Pool claim theorems -/

/-- C2: for every validly created pool and every sequence of allocate/free
requests, the pool keeps `used_size ≤ total_size` with `used_size` an
integer multiple of `block_size`, every block inside `[0, total_size)`, and
the live blocks pairwise non-overlapping. -/
theorem pool_run_invariants (total bsz : Nat) (ops : List PoolOp) (p0 : Pool)
    (hc : Pool.create total bsz = .ok p0) :
    (runOps p0 ops).used_size ≤ (runOps p0 ops).total_size ∧
    (runOps p0 ops).block_size ∣ (runOps p0 ops).used_size ∧
    (∀ b ∈ (runOps p0 ops).blocks, b.offset + b.len ≤ (runOps p0 ops).total_size) ∧
    List.Pairwise (fun a b => a.offset + a.len ≤ b.offset ∨ b.offset + b.len ≤ a.offset)
      ((runOps p0 ops).blocks.filter fun b => !b.free) :=
  wf_invariants (wf_runOps (wf_create hc) ops)

theorem pool_run_invariants_witness :
    (runOps ⟨1024, 64, [⟨0, 1024, true⟩], 0⟩ [PoolOp.alloc 100]).used_size ≤
      (runOps ⟨1024, 64, [⟨0, 1024, true⟩], 0⟩ [PoolOp.alloc 100]).total_size :=
  (pool_run_invariants 1024 64 [PoolOp.alloc 100] ⟨1024, 64, [⟨0, 1024, true⟩], 0⟩ rfl).1

theorem allocScan_eq_none {need : Nat} :
    ∀ {bs : List Block}, allocScan bs need = none ↔
      ∀ b ∈ bs, b.free = true → b.len < need := by
  intro bs
  induction bs with
  | nil => simp [allocScan]
  | cons b rest ih =>
    rw [allocScan]
    by_cases hc : b.free = true ∧ need ≤ b.len
    · rw [if_pos hc]
      constructor
      · intro h
        split at h <;> cases h
      · intro h
        exfalso
        have := h b (List.mem_cons_self b rest) hc.1
        omega
    · rw [if_neg hc]
      cases hrec : allocScan rest need with
      | none =>
        simp only [hrec]
        constructor
        · intro _ c hcmem hcf
          rcases List.mem_cons.mp hcmem with rfl | hcm
          · have hnle : ¬need ≤ c.len := fun hle => hc ⟨hcf, hle⟩
            omega
          · exact (ih.mp hrec) c hcm hcf
        · intro _; trivial
      | some pr =>
        obtain ⟨rest', off⟩ := pr
        simp only [hrec]
        constructor
        · intro h; cases h
        · intro h
          exfalso
          have hnone : allocScan rest need = none :=
            ih.mpr fun c hcm hcf => h c (List.mem_cons_of_mem b hcm) hcf
          rw [hnone] at hrec; cases hrec

theorem allocate_oom_iff (p : Pool) (size : Nat) :
    p.allocate size = .error .OutOfMemory ↔
      ∀ b ∈ p.blocks, b.free = true → b.len < roundUp size p.block_size := by
  cases hscan : allocScan p.blocks (roundUp size p.block_size) with
  | none =>
    simp only [Pool.allocate, hscan]
    exact iff_of_true trivial (allocScan_eq_none.mp hscan)
  | some pr =>
    obtain ⟨bs, off⟩ := pr
    simp only [Pool.allocate, hscan]
    constructor
    · intro h; cases h
    · intro h
      exfalso
      have hnone := allocScan_eq_none.mpr h
      rw [hnone] at hscan; cases hscan

theorem allocate_ok_used {p p' : Pool} {size off : Nat}
    (h : p.allocate size = .ok (p', off)) :
    p'.used_size = p.used_size + roundUp size p.block_size := by
  simp only [Pool.allocate] at h
  cases hscan : allocScan p.blocks (roundUp size p.block_size) with
  | none =>
    rw [hscan] at h
    cases h
  | some pr =>
    obtain ⟨bs, o⟩ := pr
    rw [hscan] at h
    injection h with h1
    cases h1
    rfl

/-- C7: allocate rounds the request up to a whole number of blocks and
fails with `OutOfMemory` exactly when no free block is large enough; in
the 1024/64 scenario, allocate(100) succeeds consuming 128 bytes,
allocate(1024) then fails `OutOfMemory`, and freeing the first handle
returns `used_size` to 0. -/
theorem allocate_rounding_and_scenario :
    (∀ (p : Pool) (size : Nat),
      p.allocate size = .error .OutOfMemory ↔
        ∀ b ∈ p.blocks, b.free = true → b.len < roundUp size p.block_size) ∧
    (∀ (p p' : Pool) (size off : Nat), p.allocate size = .ok (p', off) →
      p'.used_size = p.used_size + roundUp size p.block_size) ∧
    Pool.create 1024 64 = .ok ⟨1024, 64, [⟨0, 1024, true⟩], 0⟩ ∧
    roundUp 100 64 = 128 ∧
    Pool.allocate ⟨1024, 64, [⟨0, 1024, true⟩], 0⟩ 100 =
      .ok (⟨1024, 64, [⟨0, 128, false⟩, ⟨128, 896, true⟩], 128⟩, 0) ∧
    Pool.allocate ⟨1024, 64, [⟨0, 128, false⟩, ⟨128, 896, true⟩], 128⟩ 1024 =
      .error .OutOfMemory ∧
    Pool.free ⟨1024, 64, [⟨0, 128, false⟩, ⟨128, 896, true⟩], 128⟩ 0 =
      .ok ⟨1024, 64, [⟨0, 1024, true⟩], 0⟩ :=
  ⟨allocate_oom_iff, fun _ _ _ _ h => allocate_ok_used h, rfl, rfl, rfl, rfl, rfl⟩

theorem allocate_rounding_witness :
    (⟨1024, 64, [⟨0, 128, false⟩, ⟨128, 896, true⟩], 128⟩ : Pool).used_size =
      (⟨1024, 64, [⟨0, 1024, true⟩], 0⟩ : Pool).used_size + roundUp 100 64 :=
  allocate_rounding_and_scenario.2.1 _ _ 100 0 rfl

/-! ### Bridge error surface theorems -/

/-- C8 counterexample: a failing `prismancer_memory_pool_create` reports
its error by mutating the process-wide last-error state — before the call
`prismancer_zig_get_last_error` returns NULL, after the failing call it
returns the stored message — so a core operation does report errors
through process-wide mutable last-error state, contrary to the claim. -/
theorem pool_create_global_error_counterexample :
    (prismancer_memory_pool_create ⟨none⟩ 0 1).2 = none ∧
    prismancer_zig_get_last_error ⟨none⟩ = none ∧
    prismancer_zig_get_last_error (prismancer_memory_pool_create ⟨none⟩ 0 1).1 =
      some (poolErrorMessage .InvalidSize) :=
  ⟨rfl, rfl, rfl⟩

/-- C8 (amended): every core-operation failure is visible in the call's
explicit result value (NULL result), but the bridge surface additionally
reports the error message through the process-wide mutable last-error
state exposed by `prismancer_zig_get_last_error` and reset by
`prismancer_zig_clear_error`, shared between calls. -/
theorem bridge_error_reporting (st : BridgeErrorState) (total bsz : Nat) :
    ((prismancer_memory_pool_create st total bsz).2 = none ↔
      ∃ e, Pool.create total bsz = .error e) ∧
    (∀ e, Pool.create total bsz = .error e →
      prismancer_zig_get_last_error (prismancer_memory_pool_create st total bsz).1 =
        some (poolErrorMessage e)) ∧
    (∀ p, Pool.create total bsz = .ok p →
      prismancer_memory_pool_create st total bsz = (st, some p)) ∧
    prismancer_zig_get_last_error (prismancer_zig_clear_error st) = none := by
  refine ⟨?_, ?_, ?_, rfl⟩
  · cases hc : Pool.create total bsz with
    | ok p =>
      simp only [prismancer_memory_pool_create, hc]
      constructor
      · intro h; cases h
      · rintro ⟨e, he⟩
        cases he
    | error e =>
      simp only [prismancer_memory_pool_create, hc]
      exact iff_of_true trivial ⟨e, rfl⟩
  · intro e he
    simp only [prismancer_memory_pool_create, he]
    rfl
  · intro p hp
    simp only [prismancer_memory_pool_create, hp]

theorem bridge_error_reporting_witness :
    prismancer_memory_pool_create ⟨none⟩ 64 64 =
      (⟨none⟩, some ⟨64, 64, [⟨0, 64, true⟩], 0⟩) :=
  (bridge_error_reporting ⟨none⟩ 64 64).2.2.1 ⟨64, 64, [⟨0, 64, true⟩], 0⟩ rfl
